import Mathlib

/-!
# Verification of `cik_lookup.py`

A shallow embedding of the CIK-lookup utility.  Text is modelled as
`List Char`; the Python string primitives used by the program
(`str.find`, slicing with negative indices, `str.strip`,
`str.split("\n")`, substring containment) are embedded as executable
functions, and the two text-extraction routines
(`extract_pre_sections` and the record-parsing loop inside `main`)
are translated line by line.  The driver loop of `main` is embedded
with the per-query fetch outcome made explicit as a sum type
(`FetchResult`), so that the `try`/`except` structure becomes a total
function on that sum.
-/

namespace CikLookup

/-- Occurrence test: `sub` occurs in `s` at index `m` of `l`
(Python: `s[m:m+len(sub)] == sub`). -/
def occursAt (s sub : List Char) (m : Nat) : Prop :=
  sub <+: s.drop m

instance (s sub : List Char) (m : Nat) : Decidable (occursAt s sub m) := by
  unfold occursAt
  infer_instance

/-- Helper for `findFrom`: index of the first occurrence of `sub` in `l`
(scanning left to right), if any.  Structural recursion on `l` so that
witnesses evaluate in the kernel. -/
def findSubAux (sub : List Char) : List Char → Option Nat
  | [] => if sub.isPrefixOf [] then some 0 else none
  | c :: rest =>
    if sub.isPrefixOf (c :: rest) then some 0
    else (findSubAux sub rest).map (fun m => m + 1)

/-- Python `s.find(sub, i)` for a non-empty `sub`, returning `none`
instead of `-1`: the least index `j ≥ i` at which `sub` occurs in `s`. -/
def findFrom (s sub : List Char) (i : Nat) : Option Nat :=
  (findSubAux sub (s.drop i)).map (fun m => i + m)

/-- Python `s.find(sub, i)` with the `-1` convention kept, as the code
compares against `-1` and feeds the result into slice arithmetic. -/
def pyFind (s sub : List Char) (i : Nat) : Int :=
  match findFrom s sub i with
  | none => -1
  | some j => (j : Int)

/-- Python `sub in s` (substring containment). -/
def containsSub (s sub : List Char) : Bool :=
  (findFrom s sub 0).isSome

/-- Whitespace for Python `str.strip()` (ASCII part, which is all the
program's data can contain). -/
def pyIsSpace (c : Char) : Bool :=
  c == ' ' || c == '\t' || c == '\n' || c == '\r' || c == '\x0b' || c == '\x0c'

/-- Python `s.strip()`: remove leading and trailing whitespace. -/
def pyStrip (s : List Char) : List Char :=
  ((s.dropWhile pyIsSpace).reverse.dropWhile pyIsSpace).reverse

/-- Normalise a Python slice index against a sequence of length `n`:
negative indices count from the end, then clamp into `[0, n]`. -/
def normIdx (n : Nat) (i : Int) : Nat :=
  if i < 0 then (i + n).toNat else min i.toNat n

/-- Python `s[a:b]` (both bounds present, possibly negative). -/
def pySlice (s : List Char) (a b : Int) : List Char :=
  (s.take (normIdx s.length b)).drop (normIdx s.length a)

/-- Python `s.split("\n")` on a list of characters. -/
def splitNl : List Char → List (List Char)
  | [] => [[]]
  | c :: rest =>
    if c = '\n' then [] :: splitNl rest
    else
      match splitNl rest with
      | [] => [[c]]
      | l :: ls => (c :: l) :: ls

/-- The literal `"<pre>"` (`start_tag` in `extract_pre_sections`). -/
def startTag : List Char := ['<', 'p', 'r', 'e', '>']

/-- The literal `"</pre>"` (`end_tag` in `extract_pre_sections`). -/
def endTag : List Char := ['<', '/', 'p', 'r', 'e', '>']

/-- The literal `"<a href=\""` tested by the record-parsing loop. -/
def aHref : List Char := ['<', 'a', ' ', 'h', 'r', 'e', 'f', '=', '"']

/-- The literal `"\">"` searched for by `line.find('">')`. -/
def quoteGt : List Char := ['"', '>']

/-- The literal `"</a>"` searched for by `line.find("</a>")`. -/
def closeA : List Char := ['<', '/', 'a', '>']

/-- The scan loop of `extract_pre_sections`.  `pos` is the position the
next `html.find(start_tag, pos)` starts from.  Each iteration finds the
next `"<pre>"`, the next `"</pre>"` after it, emits the stripped text in
between and resumes the search at the end-tag position, exactly as the
Python `while` loop does.  The loop runs at most `html.length + 1` times
because the scan position strictly increases (proved below as
`extractLoopF_fuel_irrel`), so the structural fuel `html.length + 1`
used by `extract_pre_sections` never runs out. -/
def extractLoopF (html : List Char) : Nat → Nat → List (List Char)
  | 0, _ => []
  | fuel + 1, pos =>
    match findFrom html startTag pos with
    | none => []
    | some s =>
      match findFrom html endTag s with
      | none => []
      | some e =>
        pyStrip ((html.take e).drop (s + startTag.length)) ::
          extractLoopF html fuel e

/-- `extract_pre_sections(html)` from `cik_lookup.py`. -/
def extract_pre_sections (html : List Char) : List (List Char) :=
  extractLoopF html (html.length + 1) 0

/-- The body of the record-parsing loop in `main` (lines 91–99) for one
`line`: if `'<a href="' in line`, compute
`start_link = line.find('">') + 2`, `end_link = line.find("</a>")`,
`cik = line[start_link:end_link].strip()` and
`company_start = line[end_link + 4:].strip()`, and return the pair;
otherwise the line is skipped. -/
def lineRecord (line : List Char) : Option (List Char × List Char) :=
  if containsSub line aHref then
    let start_link : Int := pyFind line quoteGt 0 + 2
    let end_link : Int := pyFind line closeA 0
    let cik := pyStrip (pySlice line start_link end_link)
    let company_start := pyStrip (pySlice line (end_link + 4) (line.length : Int))
    some (cik, company_start)
  else
    none

/-- Python `data[cik] = company_start` on an insertion-ordered
association list, which is how a Python `dict` behaves: if the key is
present its value is updated in place, otherwise the pair is appended. -/
def dictInsert (d : List (List Char × List Char)) (k v : List Char) :
    List (List Char × List Char) :=
  if d.any (fun p => decide (p.1 = k)) then
    d.map (fun p => if p.1 = k then (k, v) else p)
  else
    d ++ [(k, v)]

/-- Python `data.get(k)` on the association-list model of `dict`. -/
def dictLookup : List (List Char × List Char) → List Char → Option (List Char)
  | [], _ => none
  | p :: rest, k => if p.1 = k then some p.2 else dictLookup rest k

/-- One iteration of `for line in pre_table.split("\n")`. -/
def parseLine (d : List (List Char × List Char)) (line : List Char) :
    List (List Char × List Char) :=
  match lineRecord line with
  | none => d
  | some kv => dictInsert d kv.1 kv.2

/-- The whole record-parsing loop of `main`: fold `parseLine` over the
lines of the second `<pre>` block, starting from the empty `data = {}`. -/
def parseTable (pre_table : List Char) : List (List Char × List Char) :=
  (splitNl pre_table).foldl parseLine []

/-- The sequence of `(cik, company)` pairs inserted by the parsing loop,
in line order (before the `dict` collapses duplicate keys). -/
def recordsOf (pre_table : List Char) : List (List Char × List Char) :=
  (splitNl pre_table).filterMap lineRecord

/-- The value stored for key `k` after a last-write-wins pass over the
record sequence: the label of the last occurrence of `k`, if any. -/
def lastLabel (rs : List (List Char × List Char)) (k : List Char) :
    Option (List Char) :=
  rs.foldl (fun acc p => if p.1 = k then some p.2 else acc) none

/-- The text printed by `print(f"\nResults for '{entry}':")`. -/
def resultsHeader (entry : List Char) : List Char :=
  "\nResults for '".toList ++ entry ++ "':".toList

/-- One output line `print(f"{cik:<10}: {company}")`: the identifier is
left-aligned in a field of minimum width 10 (padded on the right with
spaces, never truncated), then a colon, a space and the label. -/
def formatLine (cik company : List Char) : List Char :=
  (cik ++ List.replicate (10 - cik.length) ' ') ++ (':' :: ' ' :: company)

/-- The text printed by `print(f"Error: Missing expected table for '{entry}'.")`. -/
def missingTableMsg (entry : List Char) : List Char :=
  "Error: Missing expected table for '".toList ++ entry ++ "'.".toList

/-- The text printed by `print(f"HTTP Error for '{entry}': {e.code} {e.reason}")`. -/
def httpErrorMsg (entry : List Char) (code : Nat) (reason : List Char) : List Char :=
  "HTTP Error for '".toList ++ entry ++
    ("': ".toList ++ (Nat.repr code).toList ++ ' ' :: reason)

/-- The text printed by `print(f"URL Error for '{entry}': {e.reason}")`. -/
def urlErrorMsg (entry : List Char) (reason : List Char) : List Char :=
  "URL Error for '".toList ++ entry ++ ("': ".toList ++ reason)

/-- The text printed by `print(f"Unexpected error for '{entry}': {str(e)}")`. -/
def unexpectedErrorMsg (entry : List Char) (msg : List Char) : List Char :=
  "Unexpected error for '".toList ++ entry ++ ("': ".toList ++ msg)

/-- What processing one successfully fetched and decoded document does
(lines 82–113 of `cik_lookup.py`): run the Block Extractor and, if it
produced at least two blocks, parse the block at index 1 and print the
header followed by one formatted line per mapping entry; otherwise print
the missing-table diagnostic.  The result is the list of printed
strings, one element per `print` call. -/
def processDocument (entry html : List Char) : List (List Char) :=
  if h : 1 < (extract_pre_sections html).length then
    resultsHeader entry ::
      (parseTable ((extract_pre_sections html).get ⟨1, h⟩)).map
        (fun p => formatLine p.1 p.2)
  else
    [missingTableMsg entry]

/-- The outcome of the fallible part of one loop iteration of `main`
(request, read, decompress, decode): either the decoded document text,
or one of the three error kinds distinguished by the `except` clauses. -/
inductive FetchResult where
  | success (html : List Char)
  | httpError (code : Nat) (reason : List Char)
  | urlError (reason : List Char)
  | unexpected (msg : List Char)

/-- One iteration of the driver loop with its `try`/`except` structure:
a raised error of any of the three kinds is caught and turned into a
single diagnostic line, a successful fetch is processed. -/
def handleQuery (entry : List Char) (r : FetchResult) : List (List Char) :=
  match r with
  | .success html => processDocument entry html
  | .httpError code reason => [httpErrorMsg entry code reason]
  | .urlError reason => [urlErrorMsg entry reason]
  | .unexpected msg => [unexpectedErrorMsg entry msg]

/-- The driver loop `for entry in search_entries`, given each query's
fetch outcome: process the queries one after the other, concatenating
their printed output. -/
def runDriver : List (List Char × FetchResult) → List (List Char)
  | [] => []
  | (entry, r) :: rest => handleQuery entry r ++ runDriver rest

/-! ## Properties of the occurrence predicate and of `findFrom` -/

lemma not_occursAt_of_length_le {s sub : List Char} {m : Nat} (hsub : sub ≠ [])
    (hm : s.length ≤ m) : ¬ occursAt s sub m := by
  intro h
  rw [occursAt, List.drop_of_length_le hm] at h
  exact hsub (List.prefix_nil.mp h)

lemma occursAt_bound {s sub : List Char} {m : Nat} (hsub : sub ≠ [])
    (h : occursAt s sub m) : m + sub.length ≤ s.length := by
  have h1 : sub.length ≤ (s.drop m).length := h.length_le
  rw [List.length_drop] at h1
  by_cases hm : s.length ≤ m
  · exact absurd h (not_occursAt_of_length_le hsub hm)
  · omega

lemma findSubAux_some_iff {sub : List Char} (hsub : sub ≠ []) :
    ∀ (l : List Char) (m : Nat),
      findSubAux sub l = some m ↔
        (sub <+: l.drop m ∧ ∀ t, t < m → ¬ sub <+: l.drop t) := by
  intro l
  induction l with
  | nil =>
    intro m
    have hpre : sub.isPrefixOf ([] : List Char) = false := by
      cases sub with
      | nil => exact absurd rfl hsub
      | cons a as => rfl
    constructor
    · intro h
      simp only [findSubAux, hpre] at h
      simp at h
    · rintro ⟨h1, _⟩
      rw [List.drop_nil] at h1
      exact absurd (List.prefix_nil.mp h1) hsub
  | cons c rest ih =>
    intro m
    by_cases hp : sub.isPrefixOf (c :: rest) = true
    · have hp' : sub <+: (c :: rest) := by
        have := hp
        simpa using this
      constructor
      · intro h
        simp only [findSubAux, hp, if_true] at h
        obtain rfl : m = 0 := by simpa using h.symm
        exact ⟨by simpa using hp', fun t ht => absurd ht (by omega)⟩
      · rintro ⟨h1, h2⟩
        rcases Nat.eq_zero_or_pos m with hm | hm
        · subst hm
          simp [findSubAux, hp]
        · exact absurd (by simpa using hp') (h2 0 hm)
    · have hp' : ¬ sub <+: (c :: rest) := by
        intro hc
        exact hp (by simpa using hc)
      have hpb : sub.isPrefixOf (c :: rest) = false := by
        cases hb : sub.isPrefixOf (c :: rest)
        · rfl
        · exact absurd hb hp
      constructor
      · intro h
        simp only [findSubAux, hpb, Bool.false_eq_true, if_false,
          Option.map_eq_some'] at h
        obtain ⟨m', hm', rfl⟩ := h
        obtain ⟨h1, h2⟩ := (ih m').mp hm'
        refine ⟨by simpa using h1, ?_⟩
        intro t ht
        cases t with
        | zero => simpa using hp'
        | succ t' =>
          have := h2 t' (by omega)
          simpa using this
      · rintro ⟨h1, h2⟩
        cases m with
        | zero => exact absurd (by simpa using h1) hp'
        | succ m' =>
          have hrest : findSubAux sub rest = some m' := by
            refine (ih m').mpr ⟨by simpa using h1, ?_⟩
            intro t ht
            have := h2 (t + 1) (by omega)
            simpa using this
          simp [findSubAux, hpb, hrest]

lemma findSubAux_none_iff {sub : List Char} (hsub : sub ≠ []) :
    ∀ (l : List Char), findSubAux sub l = none ↔ ∀ t, ¬ sub <+: l.drop t := by
  intro l
  induction l with
  | nil =>
    constructor
    · intro _ t h1
      rw [List.drop_nil] at h1
      exact absurd (List.prefix_nil.mp h1) hsub
    · intro _
      have hpre : sub.isPrefixOf ([] : List Char) = false := by
        cases sub with
        | nil => exact absurd rfl hsub
        | cons a as => rfl
      simp [findSubAux, hpre]
  | cons c rest ih =>
    by_cases hp : sub.isPrefixOf (c :: rest) = true
    · have hp' : sub <+: (c :: rest) := by
        have := hp
        simpa using this
      constructor
      · intro h
        simp [findSubAux, hp] at h
      · intro h
        exact absurd (by simpa using hp') (h 0)
    · have hpb : sub.isPrefixOf (c :: rest) = false := by
        cases hb : sub.isPrefixOf (c :: rest)
        · rfl
        · exact absurd hb hp
      have hp' : ¬ sub <+: (c :: rest) := by
        intro hc
        exact hp (by simpa using hc)
      constructor
      · intro h t
        simp only [findSubAux, hpb, Bool.false_eq_true, if_false,
          Option.map_eq_none'] at h
        cases t with
        | zero => simpa using hp'
        | succ t' =>
          have := (ih.mp h) t'
          simpa using this
      · intro h
        have : findSubAux sub rest = none := by
          refine ih.mpr ?_
          intro t
          have := h (t + 1)
          simpa using this
        simp [findSubAux, hpb, this]

lemma findFrom_some_iff {s sub : List Char} (hsub : sub ≠ []) {i j : Nat} :
    findFrom s sub i = some j ↔
      (i ≤ j ∧ occursAt s sub j ∧ ∀ k, k < j → i ≤ k → ¬ occursAt s sub k) := by
  unfold findFrom
  constructor
  · intro h
    rw [Option.map_eq_some'] at h
    obtain ⟨m, hm, rfl⟩ := h
    obtain ⟨h1, h2⟩ := (findSubAux_some_iff hsub _ m).mp hm
    rw [List.drop_drop] at h1
    refine ⟨Nat.le_add_right _ _, h1, ?_⟩
    intro k hk hik hocc
    have hidx : i + (k - i) = k := by omega
    have := h2 (k - i) (by omega)
    rw [List.drop_drop, hidx] at this
    exact this hocc
  · rintro ⟨h1, h2, h3⟩
    have hij : i + (j - i) = j := by omega
    have hsome : findSubAux sub (s.drop i) = some (j - i) := by
      refine (findSubAux_some_iff hsub _ _).mpr ⟨?_, ?_⟩
      · rw [List.drop_drop, hij]
        exact h2
      · intro t ht
        rw [List.drop_drop]
        exact h3 (i + t) (by omega) (by omega)
    rw [hsome]
    simp [hij]

lemma findFrom_none_iff {s sub : List Char} (hsub : sub ≠ []) {i : Nat} :
    findFrom s sub i = none ↔ ∀ k, i ≤ k → ¬ occursAt s sub k := by
  unfold findFrom
  rw [Option.map_eq_none']
  rw [findSubAux_none_iff hsub]
  constructor
  · intro h k hk
    have := h (k - i)
    rw [List.drop_drop] at this
    have hidx : i + (k - i) = k := by omega
    rw [hidx] at this
    exact this
  · intro h t
    rw [List.drop_drop]
    exact h (i + t) (by omega)

lemma startTag_ne_nil : startTag ≠ ([] : List Char) := by decide

lemma endTag_ne_nil : endTag ≠ ([] : List Char) := by decide

lemma aHref_ne_nil : aHref ≠ ([] : List Char) := by decide

lemma quoteGt_ne_nil : quoteGt ≠ ([] : List Char) := by decide

lemma closeA_ne_nil : closeA ≠ ([] : List Char) := by decide

/-- `"<pre>"` and `"</pre>"` cannot occur at the same position: their
second characters differ.  This is what makes the scan position of
`extract_pre_sections` strictly increase. -/
lemma startTag_endTag_clash {html : List Char} {j : Nat}
    (h1 : occursAt html startTag j) (h2 : occursAt html endTag j) : False := by
  obtain ⟨t1, ht1⟩ := h1
  obtain ⟨t2, ht2⟩ := h2
  have h3 : startTag ++ t1 = endTag ++ t2 := ht1.trans ht2.symm
  simp [startTag, endTag] at h3

/-! ## Well-formed marker chains and the extraction loop -/

/-- `ChainFrom html pos ps q`: starting the scan at `pos`, the input
contains exactly the non-overlapping, well-formed, sequentially ordered
marker pairs listed in `ps`, each `(s, e)` being the first `"<pre>"`
occurrence at or after the scan position together with the first
`"</pre>"` occurrence at or after it; the scan position after consuming
all pairs is `q` (the position of the last end marker, where
`html.find(start_tag, end)` resumes). -/
def ChainFrom (html : List Char) : Nat → List (Nat × Nat) → Nat → Prop
  | pos, [], q => pos = q
  | pos, (s, e) :: rest, q =>
    pos ≤ s ∧ occursAt html startTag s ∧
      (∀ j, j < s → pos ≤ j → ¬ occursAt html startTag j) ∧
      s ≤ e ∧ occursAt html endTag e ∧
      (∀ j, j < e → s ≤ j → ¬ occursAt html endTag j) ∧
      ChainFrom html e rest q

/-- The trimmed text strictly between the pair of markers at `(s, e)`. -/
def blockAt (html : List Char) (p : Nat × Nat) : List Char :=
  pyStrip ((html.take p.2).drop (p.1 + startTag.length))

/-- Running the scan loop over a well-formed chain of marker pairs
produces exactly the corresponding trimmed blocks, provided the fuel
covers the remaining scan range and the input after the chain makes the
loop stop (parameter `Tail`, instantiated with "no further start marker"
for C1 and with "a dangling start marker without end marker" for C5). -/
lemma extractLoopF_chain (html : List Char) (Tail : Nat → Prop)
    (hTail : ∀ q fuel, Tail q → extractLoopF html (fuel + 1) q = []) :
    ∀ (ps : List (Nat × Nat)) (pos q fuel : Nat),
      pos ≤ html.length → ChainFrom html pos ps q → Tail q →
      html.length + 1 - pos ≤ fuel →
      extractLoopF html fuel pos = ps.map (blockAt html) := by
  intro ps
  induction ps with
  | nil =>
    intro pos q fuel hpos hchain htail hfuel
    obtain rfl : pos = q := hchain
    obtain ⟨fuel', rfl⟩ : ∃ f, fuel = f + 1 := ⟨fuel - 1, by omega⟩
    simpa using hTail pos fuel' htail
  | cons p rest ih =>
    obtain ⟨s, e⟩ := p
    intro pos q fuel hpos hchain htail hfuel
    obtain ⟨h1, h2, h3, h4, h5, h6, h7⟩ := hchain
    have hfs : findFrom html startTag pos = some s :=
      (findFrom_some_iff startTag_ne_nil).mpr ⟨h1, h2, h3⟩
    have hfe : findFrom html endTag s = some e :=
      (findFrom_some_iff endTag_ne_nil).mpr ⟨h4, h5, h6⟩
    have hse : s ≠ e := by
      intro h
      exact startTag_endTag_clash h2 (h.symm ▸ h5)
    have hbound : e + endTag.length ≤ html.length := occursAt_bound endTag_ne_nil h5
    have hlen : endTag.length = 6 := by decide
    obtain ⟨fuel', rfl⟩ : ∃ f, fuel = f + 1 := ⟨fuel - 1, by omega⟩
    simp only [extractLoopF, hfs, hfe, List.map_cons]
    exact congrArg _ (ih e q fuel' (by omega) h7 htail (by omega))

/-- C1.  For every input text containing `N` non-overlapping, well-formed
start/end marker pairs (`<pre>`/`</pre>`) in sequential order (expressed
by `ChainFrom` together with the absence of further start markers after
the chain), `extract_pre_sections` returns a list of exactly `N`
elements, where the `k`-th element is the whitespace-trimmed substring
strictly between the `k`-th start marker and its matching end marker,
in order of appearance in the input. -/
theorem C1_extract_pre_sections_wellformed (html : List Char)
    (ps : List (Nat × Nat)) (q : Nat)
    (hchain : ChainFrom html 0 ps q)
    (htail : ∀ j, q ≤ j → ¬ occursAt html startTag j) :
    extract_pre_sections html = ps.map (blockAt html) ∧
    (extract_pre_sections html).length = ps.length := by
  have hmain : extract_pre_sections html = ps.map (blockAt html) := by
    refine extractLoopF_chain html
      (fun q' => ∀ j, q' ≤ j → ¬ occursAt html startTag j) ?_
      ps 0 q (html.length + 1) (Nat.zero_le _) hchain htail (by omega)
    intro q' fuel htail'
    have hnone : findFrom html startTag q' = none :=
      (findFrom_none_iff startTag_ne_nil).mpr htail'
    simp [extractLoopF, hnone]
  exact ⟨hmain, by rw [hmain, List.length_map]⟩

/-- Witness for C1 on a concrete document with two well-formed pairs. -/
theorem C1_extract_pre_sections_wellformed_witness :
    extract_pre_sections "<pre> a </pre>junk<pre>b</pre>".toList =
      [((0 : Nat), (8 : Nat)), (18, 24)].map
        (blockAt "<pre> a </pre>junk<pre>b</pre>".toList) ∧
    (extract_pre_sections "<pre> a </pre>junk<pre>b</pre>".toList).length =
      [((0 : Nat), (8 : Nat)), (18, 24)].length :=
  C1_extract_pre_sections_wellformed "<pre> a </pre>junk<pre>b</pre>".toList
    [(0, 8), (18, 24)] 24
    ⟨by decide, by decide, by decide, by decide, by decide, by decide,
      by decide, by decide, by decide, by decide, by decide, by decide, rfl⟩
    ((findFrom_none_iff startTag_ne_nil).mp (by decide))

/-- C9.  In each iteration of the scan loop of `extract_pre_sections`
the scan position strictly increases: the end marker found by
`html.find(end_tag, start)` lies strictly after the current start
marker, and the next start marker found by `html.find(start_tag, end)`
lies strictly after that end position, so the loop cannot run forever
(and indeed `extract_pre_sections` is a total function whose fuel
`html.length + 1` is never exhausted, by `extractLoopF_chain`). -/
theorem C9_scan_position_strictly_increases (html : List Char) (s e s2 : Nat)
    (hs : occursAt html startTag s)
    (hfe : findFrom html endTag s = some e)
    (hfs2 : findFrom html startTag e = some s2) :
    s < e ∧ e < s2 := by
  obtain ⟨hse, hocce, -⟩ := (findFrom_some_iff endTag_ne_nil).mp hfe
  obtain ⟨hes2, hoccs2, -⟩ := (findFrom_some_iff startTag_ne_nil).mp hfs2
  constructor
  · rcases Nat.lt_or_ge s e with h | h
    · exact h
    · obtain rfl : s = e := by omega
      exact absurd hocce (fun hc => startTag_endTag_clash hs hc)
  · rcases Nat.lt_or_ge e s2 with h | h
    · exact h
    · obtain rfl : e = s2 := by omega
      exact absurd hocce (fun hc => startTag_endTag_clash hoccs2 hc)

/-- Witness for C9 on a concrete document. -/
theorem C9_scan_position_strictly_increases_witness :
    (0 : Nat) < 6 ∧ (6 : Nat) < 12 :=
  C9_scan_position_strictly_increases "<pre>a</pre><pre>".toList 0 6 12
    (by decide) (by decide) (by decide)

/-- C5.  First part: if after a chain of complete blocks some start
marker has no following end marker, `extract_pre_sections` returns
exactly the blocks completed before that start marker (and, being a
total function, does not raise).  Second part: for input with zero start
markers it returns an empty sequence. -/
theorem C5_unmatched_start_marker :
    (∀ (html : List Char) (ps : List (Nat × Nat)) (q s : Nat),
      ChainFrom html 0 ps q →
      q ≤ s → occursAt html startTag s →
      (∀ j, j < s → q ≤ j → ¬ occursAt html startTag j) →
      (∀ j, s ≤ j → ¬ occursAt html endTag j) →
      extract_pre_sections html = ps.map (blockAt html)) ∧
    (∀ html : List Char, (∀ j, ¬ occursAt html startTag j) →
      extract_pre_sections html = []) := by
  constructor
  · intro html ps q s hchain hqs hocc hmin hnoend
    refine extractLoopF_chain html
      (fun q' => ∃ s', q' ≤ s' ∧ occursAt html startTag s' ∧
        (∀ j, j < s' → q' ≤ j → ¬ occursAt html startTag j) ∧
        (∀ j, s' ≤ j → ¬ occursAt html endTag j)) ?_
      ps 0 q (html.length + 1) (Nat.zero_le _) hchain
      ⟨s, hqs, hocc, hmin, hnoend⟩ (by omega)
    intro q' fuel htail'
    obtain ⟨s', hqs', hocc', hmin', hnoend'⟩ := htail'
    have hfs : findFrom html startTag q' = some s' :=
      (findFrom_some_iff startTag_ne_nil).mpr ⟨hqs', hocc', hmin'⟩
    have hfe : findFrom html endTag s' = none :=
      (findFrom_none_iff endTag_ne_nil).mpr hnoend'
    simp [extractLoopF, hfs, hfe]
  · intro html hnone
    refine extractLoopF_chain html
      (fun q' => ∀ j, q' ≤ j → ¬ occursAt html startTag j) ?_
      [] 0 0 (html.length + 1) (Nat.zero_le _) rfl
      (fun j _ => hnone j) (by omega)
    intro q' fuel htail'
    have hnone' : findFrom html startTag q' = none :=
      (findFrom_none_iff startTag_ne_nil).mpr htail'
    simp [extractLoopF, hnone']

/-- Witness for C5: a document whose second start marker is unmatched,
and a document with no markers at all. -/
theorem C5_unmatched_start_marker_witness :
    extract_pre_sections "<pre>a</pre>x<pre>bc".toList =
      [((0 : Nat), (6 : Nat))].map (blockAt "<pre>a</pre>x<pre>bc".toList) ∧
    extract_pre_sections "no markers here".toList = [] := by
  constructor
  · exact C5_unmatched_start_marker.1 "<pre>a</pre>x<pre>bc".toList
      [(0, 6)] 6 13
      ⟨by decide, by decide, by decide, by decide, by decide, by decide, rfl⟩
      (by decide) (by decide) (by decide)
      ((findFrom_none_iff endTag_ne_nil).mp (by decide))
  · exact C5_unmatched_start_marker.2 "no markers here".toList
      (fun j => (findFrom_none_iff startTag_ne_nil).mp (by decide) j (Nat.zero_le j))

/-! ## Python slice arithmetic -/

lemma normIdx_coe {n a : Nat} (h : a ≤ n) : normIdx n (a : Int) = a := by
  unfold normIdx
  rw [if_neg (by omega)]
  omega

lemma normIdx_neg_one {n : Nat} (h : 0 < n) : normIdx n (-1) = n - 1 := by
  unfold normIdx
  rw [if_pos (by omega)]
  omega

lemma pySlice_coe {s : List Char} {a b : Nat} (ha : a ≤ s.length)
    (hb : b ≤ s.length) : pySlice s (a : Int) (b : Int) = (s.take b).drop a := by
  unfold pySlice
  rw [normIdx_coe ha, normIdx_coe hb]

lemma pySlice_to_end {s : List Char} {a : Nat} (ha : a ≤ s.length) :
    pySlice s (a : Int) (s.length : Int) = s.drop a := by
  rw [pySlice_coe ha (Nat.le_refl _), List.take_length]

lemma pySlice_neg_one {s : List Char} {a : Nat} (hs : 0 < s.length)
    (ha : a ≤ s.length) :
    pySlice s (a : Int) (-1) = (s.take (s.length - 1)).drop a := by
  unfold pySlice
  rw [normIdx_coe ha, normIdx_neg_one hs]

/-! ## Properties of the record-parsing loop -/

lemma containsSub_eq_false_iff {s sub : List Char} :
    containsSub s sub = false ↔ findFrom s sub 0 = none := by
  unfold containsSub
  cases h : findFrom s sub 0 <;> simp [h]

lemma length_of_containsA {line : List Char}
    (hA : containsSub line aHref = true) : 9 ≤ line.length := by
  unfold containsSub at hA
  rw [Option.isSome_iff_exists] at hA
  obtain ⟨j, hj⟩ := hA
  obtain ⟨-, hocc, -⟩ := (findFrom_some_iff aHref_ne_nil).mp hj
  have := occursAt_bound aHref_ne_nil hocc
  have hl : aHref.length = 9 := by decide
  omega

lemma pyFind_ge (s sub : List Char) (i : Nat) : -1 ≤ pyFind s sub i := by
  cases h : findFrom s sub i with
  | none =>
    have hv : pyFind s sub i = -1 := by simp [pyFind, h]
    omega
  | some j =>
    have hv : pyFind s sub i = (j : Int) := by simp [pyFind, h]
    omega

/-- For a line containing the anchor-open pattern whose `line.find('">')`
and `line.find("</a>")` both succeed, the record produced by lines 91–99
of `main`: identifier from two characters past the `"\">"` match up to
the `"</a>"` match and label from four characters past the `"</a>"`
match, both stripped. -/
lemma lineRecord_eq_of_found {line : List Char} {q e : Nat}
    (hA : containsSub line aHref = true)
    (hq : findFrom line quoteGt 0 = some q)
    (he : findFrom line closeA 0 = some e) :
    lineRecord line =
      some (pyStrip ((line.take e).drop (q + 2)), pyStrip (line.drop (e + 4))) := by
  obtain ⟨-, hoccq, -⟩ := (findFrom_some_iff quoteGt_ne_nil).mp hq
  obtain ⟨-, hocce, -⟩ := (findFrom_some_iff closeA_ne_nil).mp he
  have hqb : q + 2 ≤ line.length := by
    have := occursAt_bound quoteGt_ne_nil hoccq
    have hl : quoteGt.length = 2 := by decide
    omega
  have heb : e + 4 ≤ line.length := by
    have := occursAt_bound closeA_ne_nil hocce
    have hl : closeA.length = 4 := by decide
    omega
  have hpfq : pyFind line quoteGt 0 = (q : Int) := by simp [pyFind, hq]
  have hpfe : pyFind line closeA 0 = (e : Int) := by simp [pyFind, he]
  have hcast1 : ((q : Int) + 2) = (((q + 2 : Nat) : Int)) := by push_cast; ring
  have hcast2 : ((e : Int) + 4) = (((e + 4 : Nat) : Int)) := by push_cast; ring
  unfold lineRecord
  rw [if_pos hA]
  show some (pyStrip (pySlice line (pyFind line quoteGt 0 + 2) (pyFind line closeA 0)),
        pyStrip (pySlice line (pyFind line closeA 0 + 4) (line.length : Int))) = _
  rw [hpfq, hpfe, hcast1, hcast2, pySlice_coe hqb (by omega), pySlice_to_end heb]

/-- For a line containing the anchor-open pattern but no `"</a>"`,
`end_link = -1` and both slices are computed against `-1`, exactly as
lines 93–98 of `main` do. -/
lemma lineRecord_eq_of_noclose {line : List Char}
    (hA : containsSub line aHref = true)
    (hnc : findFrom line closeA 0 = none) :
    lineRecord line =
      some (pyStrip ((line.take (line.length - 1)).drop
              ((pyFind line quoteGt 0 + 2).toNat)),
            pyStrip (line.drop 3)) := by
  have hlen : 9 ≤ line.length := length_of_containsA hA
  have hend : pyFind line closeA 0 = -1 := by simp [pyFind, hnc]
  have hstart : (pyFind line quoteGt 0 + 2 : Int) =
      (((pyFind line quoteGt 0 + 2).toNat : Nat) : Int) := by
    have := pyFind_ge line quoteGt 0
    omega
  have hstart_le : (pyFind line quoteGt 0 + 2).toNat ≤ line.length := by
    cases hq : findFrom line quoteGt 0 with
    | none =>
      have hv : pyFind line quoteGt 0 = -1 := by simp [pyFind, hq]
      rw [hv]
      omega
    | some q =>
      have hv : pyFind line quoteGt 0 = (q : Int) := by simp [pyFind, hq]
      obtain ⟨-, hoccq, -⟩ := (findFrom_some_iff quoteGt_ne_nil).mp hq
      have hb := occursAt_bound quoteGt_ne_nil hoccq
      have hl : quoteGt.length = 2 := by decide
      rw [hv]
      omega
  have hslice : pySlice line (pyFind line quoteGt 0 + 2) (-1) =
      (line.take (line.length - 1)).drop ((pyFind line quoteGt 0 + 2).toNat) := by
    generalize hn : (pyFind line quoteGt 0 + 2).toNat = n
    have hios : (pyFind line quoteGt 0 + 2 : Int) = (n : Int) := by
      rw [← hn]
      exact hstart
    rw [hios]
    exact pySlice_neg_one (by omega) (hn ▸ hstart_le)
  unfold lineRecord
  rw [if_pos hA]
  show some (pyStrip (pySlice line (pyFind line quoteGt 0 + 2) (pyFind line closeA 0)),
        pyStrip (pySlice line (pyFind line closeA 0 + 4) (line.length : Int))) = _
  rw [hend, hslice]
  have h34 : (-1 + 4 : Int) = ((3 : Nat) : Int) := by norm_num
  rw [h34, pySlice_coe (by omega) (Nat.le_refl _), List.take_length]

/-- C3.  For every line that contains `"<a href=\""` but not `"</a>"`,
the Record Parser does not raise (it is a total function): it computes
`end_link = -1`, the identifier becomes the slice of the line from
`start_link` up to the position before the last character, the label
becomes the text of the line from index 3 (i.e. `-1 + 4`) onward,
trimmed, and an entry is still inserted into the mapping. -/
theorem C3_no_close_anchor_degrades (d : List (List Char × List Char))
    (line : List Char)
    (hA : containsSub line aHref = true)
    (hnc : containsSub line closeA = false) :
    pyFind line closeA 0 = -1 ∧
    parseLine d line =
      dictInsert d
        (pyStrip ((line.take (line.length - 1)).drop
          ((pyFind line quoteGt 0 + 2).toNat)))
        (pyStrip (line.drop 3)) := by
  have hnone : findFrom line closeA 0 = none := containsSub_eq_false_iff.mp hnc
  constructor
  · unfold pyFind
    rw [hnone]
  · unfold parseLine
    rw [lineRecord_eq_of_noclose hA hnone]

/-- Witness for C3 on a concrete malformed line. -/
theorem C3_no_close_anchor_degrades_witness :
    pyFind "<a href=\"x\">123 Foo".toList closeA 0 = -1 ∧
    parseLine [] "<a href=\"x\">123 Foo".toList =
      dictInsert []
        (pyStrip (("<a href=\"x\">123 Foo".toList.take
          ("<a href=\"x\">123 Foo".toList.length - 1)).drop
          ((pyFind "<a href=\"x\">123 Foo".toList quoteGt 0 + 2).toNat)))
        (pyStrip ("<a href=\"x\">123 Foo".toList.drop 3)) :=
  C3_no_close_anchor_degrades [] "<a href=\"x\">123 Foo".toList
    (by decide) (by decide)

/-- The Record Parser identifier rule as the spec and C2 word it
(modelled from the spec's words, for comparison with the code): find the
anchor open, then the first occurrence of `"\">"` *after the anchor
open*, and take the text from two characters past that match up to the
first subsequent `"</a>"`. -/
def specRecordId (line : List Char) : Option (List Char) :=
  match findFrom line aHref 0 with
  | none => none
  | some a =>
    match findFrom line quoteGt a with
    | none => none
    | some q2 =>
      match findFrom line closeA (q2 + 2) with
      | none => none
      | some e2 => some ((line.take e2).drop (q2 + 2))

/-- Counterexample to C2 as stated: on a line whose first `"\">"` lies
*before* the anchor open, the claim's identifier (`"123"`, per
`specRecordId`) differs from the identifier the code actually inserts,
because `line.find('">')` searches from the start of the line. -/
theorem C2_counterexample :
    specRecordId "z\">w<a href=\"u\">123</a> L".toList = some "123".toList ∧
    lineRecord "z\">w<a href=\"u\">123</a> L".toList =
      some ("w<a href=\"u\">123".toList, "L".toList) ∧
    "w<a href=\"u\">123".toList ≠ "123".toList := by
  refine ⟨by decide, by decide, by decide⟩

/-- C2 amended.  For every line that contains `"<a href=\""`, with
`line.find('">')` succeeding at `q` and `line.find("</a>")` succeeding
at `e`, the Record Parser extracts the identifier as the text starting
two characters after the *first occurrence of `"\">"in the entire line*
(which may lie before the anchor open), up to (but not including) the
first occurrence of `"</a>"` from the start of the line, stripped, and
the label as the text after that `"</a>"`, stripped. -/
theorem C2_identifier_from_first_quoteGt (d : List (List Char × List Char))
    (line : List Char) (q e : Nat)
    (hA : containsSub line aHref = true)
    (hq : findFrom line quoteGt 0 = some q)
    (he : findFrom line closeA 0 = some e) :
    parseLine d line =
      dictInsert d (pyStrip ((line.take e).drop (q + 2)))
        (pyStrip (line.drop (e + 4))) := by
  unfold parseLine
  rw [lineRecord_eq_of_found hA hq he]

/-- Witness for the amended C2 on a well-formed line. -/
theorem C2_identifier_from_first_quoteGt_witness :
    parseLine [] "<a href=\"x\">123</a>  Example Co".toList =
      dictInsert [] (pyStrip (("<a href=\"x\">123</a>  Example Co".toList.take 15).drop 12))
        (pyStrip ("<a href=\"x\">123</a>  Example Co".toList.drop 19)) :=
  C2_identifier_from_first_quoteGt [] "<a href=\"x\">123</a>  Example Co".toList
    10 15 (by decide) (by decide) (by decide)

/-- C10.  For every line that contains `"<a href=\""` but not `"\">"`,
the Record Parser does not skip the line and does not raise:
`line.find('">')` returns `-1` so `start_link` becomes `1`, and an entry
is still inserted whose identifier is the slice of the line from index 1
up to the position of `"</a>"` (or the pathological `-1` slice if that
is also absent), stripped. -/
theorem C10_no_quoteGt_still_inserts (d : List (List Char × List Char))
    (line : List Char)
    (hA : containsSub line aHref = true)
    (hnq : containsSub line quoteGt = false) :
    (∀ e, findFrom line closeA 0 = some e →
      parseLine d line =
        dictInsert d (pyStrip ((line.take e).drop 1))
          (pyStrip (line.drop (e + 4)))) ∧
    (findFrom line closeA 0 = none →
      parseLine d line =
        dictInsert d (pyStrip ((line.take (line.length - 1)).drop 1))
          (pyStrip (line.drop 3))) := by
  have hqnone : findFrom line quoteGt 0 = none := containsSub_eq_false_iff.mp hnq
  have hpf : pyFind line quoteGt 0 = -1 := by
    unfold pyFind
    rw [hqnone]
  have hlen : 9 ≤ line.length := length_of_containsA hA
  constructor
  · intro e he
    obtain ⟨-, hocce, -⟩ := (findFrom_some_iff closeA_ne_nil).mp he
    have heb : e + 4 ≤ line.length := by
      have := occursAt_bound closeA_ne_nil hocce
      have hl : closeA.length = 4 := by decide
      omega
    have hpfe : pyFind line closeA 0 = (e : Int) := by simp [pyFind, he]
    have h12 : (pyFind line quoteGt 0 + 2 : Int) = ((1 : Nat) : Int) := by
      rw [hpf]
      norm_num
    have hcast : ((e : Int) + 4) = (((e + 4 : Nat) : Int)) := by push_cast; ring
    have hlr : lineRecord line =
        some (pyStrip ((line.take e).drop 1), pyStrip (line.drop (e + 4))) := by
      unfold lineRecord
      rw [if_pos hA]
      show some (pyStrip (pySlice line (pyFind line quoteGt 0 + 2) (pyFind line closeA 0)),
            pyStrip (pySlice line (pyFind line closeA 0 + 4) (line.length : Int))) = _
      rw [hpfe, h12, hcast, pySlice_coe (by omega) (by omega), pySlice_to_end heb]
    unfold parseLine
    rw [hlr]
  · intro hnc
    unfold parseLine
    rw [lineRecord_eq_of_noclose hA hnc, hpf]
    norm_num

/-- Witness for C10: one line with `"</a>"` present, one without. -/
theorem C10_no_quoteGt_still_inserts_witness :
    parseLine [] "x<a href=\"5</a> Q".toList =
      dictInsert [] (pyStrip (("x<a href=\"5</a> Q".toList.take 11).drop 1))
        (pyStrip ("x<a href=\"5</a> Q".toList.drop 15)) ∧
    parseLine [] "<a href=\"x".toList =
      dictInsert []
        (pyStrip (("<a href=\"x".toList.take ("<a href=\"x".toList.length - 1)).drop 1))
        (pyStrip ("<a href=\"x".toList.drop 3)) :=
  ⟨(C10_no_quoteGt_still_inserts [] "x<a href=\"5</a> Q".toList
      (by decide) (by decide)).1 11 (by decide),
   (C10_no_quoteGt_still_inserts [] "<a href=\"x".toList
      (by decide) (by decide)).2 (by decide)⟩

/-! ## The dictionary model: last-write-wins with at most one entry per key -/

/-- Every key occurs at most once in the association list (the invariant
every Python `dict` satisfies). -/
def KeysOnce (d : List (List Char × List Char)) : Prop :=
  ∀ k, d.countP (fun p => decide (p.1 = k)) ≤ 1

lemma keysOnce_nil : KeysOnce [] := by
  intro k
  simp

lemma dictLookup_isSome_of_any {d : List (List Char × List Char)} {k : List Char}
    (h : d.any (fun p => decide (p.1 = k)) = true) :
    ∃ w, dictLookup d k = some w := by
  induction d with
  | nil => simp at h
  | cons p rest ih =>
    by_cases hp : p.1 = k
    · exact ⟨p.2, by simp [dictLookup, hp]⟩
    · have h' : rest.any (fun p => decide (p.1 = k)) = true := by
        obtain ⟨x, hx, hpx⟩ := List.any_eq_true.mp h
        rcases List.mem_cons.mp hx with rfl | hx'
        · exact absurd (of_decide_eq_true hpx) hp
        · exact List.any_eq_true.mpr ⟨x, hx', hpx⟩
      obtain ⟨w, hw⟩ := ih h'
      exact ⟨w, by simp [dictLookup, hp, hw]⟩

lemma dictLookup_mapInsert (d : List (List Char × List Char)) (k v k' : List Char) :
    dictLookup (d.map (fun p => if p.1 = k then (k, v) else p)) k' =
      if k' = k then (dictLookup d k).map (fun _ => v) else dictLookup d k' := by
  induction d with
  | nil => by_cases hk : k' = k <;> simp [dictLookup, hk]
  | cons p rest ih =>
    by_cases hk : k' = k
    · subst hk
      by_cases hp : p.1 = k'
      · simp [dictLookup, hp, ih]
      · simp [dictLookup, hp, ih]
    · have hk2 : ¬ (k = k') := fun h => hk h.symm
      by_cases hp : p.1 = k
      · have hpk' : ¬ (p.1 = k') := fun h => hk2 (hp.symm.trans h)
        simp [dictLookup, hp, hk, hk2, hpk', ih]
      · by_cases hpk : p.1 = k'
        · simp [dictLookup, hp, hpk, hk, ih]
        · simp [dictLookup, hp, hpk, hk, ih]

lemma dictLookup_appendOne (d : List (List Char × List Char)) (k v k' : List Char)
    (habs : d.any (fun p => decide (p.1 = k)) = false) :
    dictLookup (d ++ [(k, v)]) k' = if k' = k then some v else dictLookup d k' := by
  induction d with
  | nil =>
    by_cases hk : k' = k
    · subst hk
      simp [dictLookup]
    · have hk2 : ¬ (k = k') := fun h => hk h.symm
      simp [dictLookup, hk, hk2]
  | cons p rest ih =>
    rw [List.any_cons, Bool.or_eq_false_iff] at habs
    obtain ⟨hp0, hrest⟩ := habs
    have hp : ¬ (p.1 = k) := by simpa using hp0
    by_cases hpk : p.1 = k'
    · have hk : ¬ (k' = k) := fun h => hp (hpk.trans h)
      simp [dictLookup, hpk, hk]
    · simp [dictLookup, hpk, ih hrest]

lemma dictLookup_dictInsert (d : List (List Char × List Char)) (k v k' : List Char) :
    dictLookup (dictInsert d k v) k' = if k' = k then some v else dictLookup d k' := by
  unfold dictInsert
  by_cases hmem : d.any (fun p => decide (p.1 = k)) = true
  · rw [if_pos hmem, dictLookup_mapInsert]
    by_cases hk : k' = k
    · subst hk
      obtain ⟨w, hw⟩ := dictLookup_isSome_of_any hmem
      rw [if_pos rfl, if_pos rfl, hw]
      rfl
    · rw [if_neg hk, if_neg hk]
  · have hmem' : d.any (fun p => decide (p.1 = k)) = false := by
      cases hb : d.any (fun p => decide (p.1 = k))
      · rfl
      · exact absurd hb hmem
    rw [if_neg hmem, dictLookup_appendOne d k v k' hmem']

lemma countP_dictInsert (d : List (List Char × List Char)) (k v k' : List Char)
    (hd : KeysOnce d) :
    (dictInsert d k v).countP (fun p => decide (p.1 = k')) =
      if k' = k then 1 else d.countP (fun p => decide (p.1 = k')) := by
  unfold dictInsert
  by_cases hmem : d.any (fun p => decide (p.1 = k)) = true
  · rw [if_pos hmem, List.countP_map]
    have hcong : d.countP ((fun p => decide (p.1 = k')) ∘
        (fun p => if p.1 = k then (k, v) else p)) =
        d.countP (fun p => decide (p.1 = k')) := by
      refine List.countP_congr ?_
      intro p _
      by_cases hp : p.1 = k
      · simp [Function.comp, hp]
      · simp [Function.comp, hp]
    rw [hcong]
    by_cases hk : k' = k
    · subst hk
      have h1 : 0 < d.countP (fun p => decide (p.1 = k')) := by
        rw [List.countP_pos_iff]
        obtain ⟨p, hpmem, hpk⟩ := List.any_eq_true.mp hmem
        exact ⟨p, hpmem, hpk⟩
      have h2 := hd k'
      rw [if_pos rfl]
      omega
    · rw [if_neg hk]
  · have hmem' : d.any (fun p => decide (p.1 = k)) = false := by
      cases hb : d.any (fun p => decide (p.1 = k))
      · rfl
      · exact absurd hb hmem
    rw [if_neg hmem, List.countP_append]
    have habs : d.countP (fun p => decide (p.1 = k)) = 0 := by
      rw [List.countP_eq_zero]
      intro p hpmem hpk
      have : d.any (fun p => decide (p.1 = k)) = true :=
        List.any_eq_true.mpr ⟨p, hpmem, hpk⟩
      simp [this] at hmem'
    by_cases hk : k' = k
    · subst hk
      rw [if_pos rfl, habs]
      simp [List.countP_cons]
    · rw [if_neg hk]
      have hk2 : ¬ (k = k') := fun h => hk h.symm
      have hone : (([(k, v)] : List (List Char × List Char)).countP
          (fun p => decide (p.1 = k'))) = 0 := by
        simp [List.countP_cons, hk2]
      omega

lemma keysOnce_dictInsert (d : List (List Char × List Char)) (k v : List Char)
    (hd : KeysOnce d) : KeysOnce (dictInsert d k v) := by
  intro k'
  rw [countP_dictInsert d k v k' hd]
  by_cases hk : k' = k
  · rw [if_pos hk]
  · rw [if_neg hk]
    exact hd k'

lemma keysOnce_parseLine (d : List (List Char × List Char)) (line : List Char)
    (hd : KeysOnce d) : KeysOnce (parseLine d line) := by
  unfold parseLine
  cases hlr : lineRecord line with
  | none => exact hd
  | some kv => exact keysOnce_dictInsert d kv.1 kv.2 hd

lemma dictLookup_foldl (lines : List (List Char)) :
    ∀ (d : List (List Char × List Char)) (k : List Char),
      dictLookup (lines.foldl parseLine d) k =
        (lines.filterMap lineRecord).foldl
          (fun acc p => if p.1 = k then some p.2 else acc) (dictLookup d k) := by
  induction lines with
  | nil =>
    intro d k
    rfl
  | cons line rest ih =>
    intro d k
    cases hlr : lineRecord line with
    | none =>
      have hpl : parseLine d line = d := by simp [parseLine, hlr]
      rw [List.foldl_cons, hpl, List.filterMap_cons_none hlr]
      exact ih d k
    | some kv =>
      have hpl : parseLine d line = dictInsert d kv.1 kv.2 := by
        simp [parseLine, hlr]
      rw [List.foldl_cons, hpl, List.filterMap_cons_some hlr, List.foldl_cons, ih]
      congr 1
      rw [dictLookup_dictInsert]
      by_cases h : k = kv.1
      · rw [if_pos h, if_pos h.symm]
      · rw [if_neg h, if_neg (fun hh => h hh.symm)]

lemma countP_foldl (lines : List (List Char)) :
    ∀ (d : List (List Char × List Char)) (k : List Char), KeysOnce d →
      (lines.foldl parseLine d).countP (fun p => decide (p.1 = k)) =
        if (lines.filterMap lineRecord).any (fun p => decide (p.1 = k)) = true
        then 1
        else d.countP (fun p => decide (p.1 = k)) := by
  induction lines with
  | nil =>
    intro d k hd
    simp
  | cons line rest ih =>
    intro d k hd
    cases hlr : lineRecord line with
    | none =>
      have hpl : parseLine d line = d := by simp [parseLine, hlr]
      rw [List.foldl_cons, hpl, List.filterMap_cons_none hlr]
      exact ih d k hd
    | some kv =>
      have hpl : parseLine d line = dictInsert d kv.1 kv.2 := by
        simp [parseLine, hlr]
      rw [List.foldl_cons, hpl, List.filterMap_cons_some hlr,
        ih _ k (keysOnce_dictInsert d kv.1 kv.2 hd),
        countP_dictInsert d kv.1 kv.2 k hd]
      by_cases hrest : (rest.filterMap lineRecord).any
          (fun p => decide (p.1 = k)) = true
      · simp [List.any_cons, hrest]
      · have hrest' : (rest.filterMap lineRecord).any
            (fun p => decide (p.1 = k)) = false := by
          cases hb : (rest.filterMap lineRecord).any (fun p => decide (p.1 = k))
          · rfl
          · exact absurd hb hrest
        by_cases hk : k = kv.1
        · simp [List.any_cons, hrest', hk]
        · have hk2 : ¬ (kv.1 = k) := fun h => hk h.symm
          simp [List.any_cons, hrest', hk, hk2]

/-- C4.  For every block in which the same identifier `k` is extracted
from two (or more) lines, the resulting mapping contains exactly one
entry for `k`, and its label is the one from the later (last)
occurrence. -/
theorem C4_duplicate_identifier_last_write_wins (block k : List Char)
    (h : 2 ≤ (recordsOf block).countP (fun p => decide (p.1 = k))) :
    (parseTable block).countP (fun p => decide (p.1 = k)) = 1 ∧
    dictLookup (parseTable block) k = lastLabel (recordsOf block) k := by
  constructor
  · unfold parseTable
    rw [countP_foldl (splitNl block) [] k keysOnce_nil]
    have hany : ((splitNl block).filterMap lineRecord).any
        (fun p => decide (p.1 = k)) = true := by
      rw [List.any_eq_true]
      have hpos : 0 < (recordsOf block).countP (fun p => decide (p.1 = k)) := by
        omega
      obtain ⟨p, hpmem, hpk⟩ := List.countP_pos_iff.mp hpos
      exact ⟨p, hpmem, hpk⟩
    rw [if_pos hany]
  · unfold parseTable recordsOf lastLabel
    rw [dictLookup_foldl]
    rfl

/-- Witness for C4: the same identifier on two lines with different
labels; the mapping keeps one entry with the later label. -/
theorem C4_duplicate_identifier_last_write_wins_witness :
    (parseTable "<a href=\"x\">123</a> A\n<a href=\"y\">123</a> B".toList).countP
        (fun p => decide (p.1 = "123".toList)) = 1 ∧
    dictLookup (parseTable "<a href=\"x\">123</a> A\n<a href=\"y\">123</a> B".toList)
        "123".toList =
      lastLabel (recordsOf "<a href=\"x\">123</a> A\n<a href=\"y\">123</a> B".toList)
        "123".toList :=
  C4_duplicate_identifier_last_write_wins
    "<a href=\"x\">123</a> A\n<a href=\"y\">123</a> B".toList "123".toList
    (by decide)

/-! ## The driver -/

/-- C6.  For every query: if the Block Extractor produces fewer than two
blocks, the driver prints exactly the single line
`Error: Missing expected table for '<name>'.` and does not run the
Record Parser (its output contains nothing else); if it produces at
least two blocks, the driver runs the Record Parser on the block at
index 1 (the second block) and prints the header followed by each
identifier/label pair. -/
theorem C6_second_block_or_missing_table (entry html : List Char) :
    ((extract_pre_sections html).length < 2 →
      processDocument entry html = [missingTableMsg entry]) ∧
    (∀ b0 b1 rest, extract_pre_sections html = b0 :: b1 :: rest →
      processDocument entry html =
        resultsHeader entry ::
          (parseTable b1).map (fun p => formatLine p.1 p.2)) := by
  constructor
  · intro hlen
    unfold processDocument
    rw [dif_neg (by omega)]
  · intro b0 b1 rest hblocks
    have hlen : 1 < (extract_pre_sections html).length := by
      rw [hblocks]
      simp
    unfold processDocument
    rw [dif_pos hlen]
    have hget : (extract_pre_sections html).get ⟨1, hlen⟩ = b1 := by
      rw [List.get_eq_getElem]
      simp only [hblocks]
      rfl
    rw [hget]

/-- Witness for C6: a document with one block, and one with two. -/
theorem C6_second_block_or_missing_table_witness :
    processDocument "ABC".toList "<pre>only one</pre>".toList =
      [missingTableMsg "ABC".toList] ∧
    processDocument "ABC".toList
        "<pre>hdr</pre><pre><a href=\"x\">7</a> Z</pre>".toList =
      resultsHeader "ABC".toList ::
        (parseTable "<a href=\"x\">7</a> Z".toList).map
          (fun p => formatLine p.1 p.2) :=
  ⟨(C6_second_block_or_missing_table "ABC".toList
      "<pre>only one</pre>".toList).1 (by decide),
   (C6_second_block_or_missing_table "ABC".toList
      "<pre>hdr</pre><pre><a href=\"x\">7</a> Z</pre>".toList).2
      "hdr".toList "<a href=\"x\">7</a> Z".toList [] (by decide)⟩

/-- The identifier field as C7 words it ("left-padded … to a minimum
field width of 10 characters"): padding spaces added on the left.
Modelled from the claim's words, for comparison with `formatLine`. -/
def leftPadTen (s : List Char) : List Char :=
  List.replicate (10 - s.length) ' ' ++ s

/-- Counterexample to C7 as stated: for the record `("123", "X")` the
driver's output line is `"123       : X"` (identifier left-aligned,
padded on the right), not the left-padded `"       123: X"` that the
claim describes. -/
theorem C7_counterexample :
    formatLine "123".toList "X".toList = "123       : X".toList ∧
    formatLine "123".toList "X".toList ≠
      leftPadTen "123".toList ++ (':' :: ' ' :: "X".toList) := by
  refine ⟨by decide, by decide⟩

/-- C7 amended.  For every record printed by the driver, the output line
consists of the identifier left-aligned (padded on the right with
spaces) to a minimum field width of 10 characters — never truncated —
followed by a colon, a space, and the label. -/
theorem C7_record_line_layout (cik company : List Char) :
    formatLine cik company =
      (cik ++ List.replicate (10 - cik.length) ' ') ++ (':' :: ' ' :: company) ∧
    cik <+: formatLine cik company ∧
    (formatLine cik company).length = max 10 cik.length + 2 + company.length := by
  refine ⟨rfl, ?_, ?_⟩
  · exact ⟨List.replicate (10 - cik.length) ' ' ++ (':' :: ' ' :: company), by
      simp [formatLine]⟩
  · simp only [formatLine, List.length_append, List.length_replicate,
      List.length_cons]
    omega

/-- C8.  Every error raised while processing one query (HTTP status
error, transport/connection error, or any other exception) is caught at
per-query granularity: the handler turns it into a single diagnostic
line that contains the query name, and the driver's output is the
concatenation of every query's output — no error aborts the overall
run. -/
theorem C8_errors_caught_per_query :
    (∀ qs : List (List Char × FetchResult),
      runDriver qs = (qs.map (fun q => handleQuery q.1 q.2)).flatten) ∧
    (∀ entry code reason,
      handleQuery entry (.httpError code reason) = [httpErrorMsg entry code reason] ∧
      entry <:+: httpErrorMsg entry code reason) ∧
    (∀ entry reason,
      handleQuery entry (.urlError reason) = [urlErrorMsg entry reason] ∧
      entry <:+: urlErrorMsg entry reason) ∧
    (∀ entry msg,
      handleQuery entry (.unexpected msg) = [unexpectedErrorMsg entry msg] ∧
      entry <:+: unexpectedErrorMsg entry msg) := by
  refine ⟨?_, ?_, ?_, ?_⟩
  · intro qs
    induction qs with
    | nil => rfl
    | cons q rest ih =>
      obtain ⟨entry, r⟩ := q
      simp only [runDriver, List.map_cons, List.flatten_cons]
      rw [ih]
  · intro entry code reason
    exact ⟨rfl, "HTTP Error for '".toList,
      "': ".toList ++ (Nat.repr code).toList ++ ' ' :: reason, rfl⟩
  · intro entry reason
    exact ⟨rfl, "URL Error for '".toList, "': ".toList ++ reason, rfl⟩
  · intro entry msg
    exact ⟨rfl, "Unexpected error for '".toList, "': ".toList ++ msg, rfl⟩

end CikLookup
